import Mathlib

/-!
Verification of the client-side transfer engine of the P2P file-transfer
repository: the incremental SHA-256 hasher (frontend/src/utils/crypto.js),
the chunk codec (reassembleChunks), the storage-strategy engine
(detectBestStrategy, IndexedDBStrategy), the receiver message handler and
the WebRTC data-channel receive path.

Byte buffers (Uint8Array) are embedded as `List Nat` whose entries are the
byte values; 32-bit machine arithmetic is embedded as `Nat` arithmetic with
explicit `% 2 ^ 32` at every point where JavaScript coerces to 32 bits.
-/

namespace P2P

/-! ## SHA-256 engine, from frontend/src/utils/crypto.js -/

/-- The round constants `K` of crypto.js (a `Uint32Array` of 64 words; the
source lists them in hexadecimal, 0x428a2f98 through 0xc67178f2 — written
here as the same values in decimal). -/
def K64 : List Nat :=
  [1116352408, 1899447441, 3049323471, 3921009573, 961987163, 1508970993,
   2453635748, 2870763221, 3624381080, 310598401, 607225278, 1426881987,
   1925078388, 2162078206, 2614888103, 3248222580, 3835390401, 4022224774,
   264347078, 604807628, 770255983, 1249150122, 1555081692, 1996064986,
   2554220882, 2821834349, 2952996808, 3210313671, 3336571891, 3584528711,
   113926993, 338241895, 666307205, 773529912, 1294757372, 1396182291,
   1695183700, 1986661051, 2177026350, 2456956037, 2730485921, 2820302411,
   3259730800, 3345764771, 3516065817, 3600352804, 4094571909, 275423344,
   430227734, 506948616, 659060556, 883997877, 958139571, 1322822218,
   1537002063, 1747873779, 1955562222, 2024104815, 2227730452, 2361852424,
   2428436474, 2756734187, 3204031479, 3329325298]

/-- The initial hash words installed by `sha256Init` (hexadecimal
0x6a09e667 through 0x5be0cd19 in the source, written in decimal). -/
def initH : List Nat :=
  [1779033703, 3144134277, 1013904242, 2773480762,
   1359893119, 2600822924, 528734635, 1541459225]

/-- JS `(x >>> k) | (x << (32 - k))` on a 32-bit value: rotate right by `k`. -/
def rotr32 (k x : Nat) : Nat :=
  (x / 2 ^ k) ||| ((x * 2 ^ (32 - k)) % 2 ^ 32)

/-- JS `(b0 << 24) | (b1 << 16) | (b2 << 8) | b3` reading a big-endian word
from four `Uint8Array` entries (each `< 256`). -/
def jsWord32 (b0 b1 b2 b3 : Nat) : Nat :=
  (b0 * 2 ^ 24 + b1 * 2 ^ 16 + b2 * 2 ^ 8 + b3) % 2 ^ 32

/-- The message-schedule extension loop of `sha256ProcessBlock`
(`for i in 16..63: W[i] = (W[i-16] + s0 + W[i-7] + s1) | 0`). -/
def extendW (w : List Nat) : List Nat :=
  if w.length < 64 then
    let i := w.length
    let w15 := w.getD (i - 15) 0
    let w2 := w.getD (i - 2) 0
    let s0 := (rotr32 7 w15) ^^^ (rotr32 18 w15) ^^^ (w15 / 2 ^ 3)
    let s1 := (rotr32 17 w2) ^^^ (rotr32 19 w2) ^^^ (w2 / 2 ^ 10)
    extendW (w ++ [(w.getD (i - 16) 0 + s0 + w.getD (i - 7) 0 + s1) % 2 ^ 32])
  else w
termination_by 64 - w.length
decreasing_by simp; omega

/-- The 64-word schedule `W` computed from one 64-byte block. -/
def sha256Schedule (block : List Nat) : List Nat :=
  extendW ((List.range 16).map fun i =>
    jsWord32 (block.getD (4 * i) 0) (block.getD (4 * i + 1) 0)
      (block.getD (4 * i + 2) 0) (block.getD (4 * i + 3) 0))

/-- The eight working variables `a..h` of the compression main loop. -/
structure RoundVars where
  a : Nat
  b : Nat
  c : Nat
  d : Nat
  e : Nat
  f : Nat
  g : Nat
  hh : Nat
deriving Repr, DecidableEq

/-- One iteration of the compression main loop of `sha256ProcessBlock`. -/
def sha256Round (st : RoundVars) (k w : Nat) : RoundVars :=
  let S1 := (rotr32 6 st.e) ^^^ (rotr32 11 st.e) ^^^ (rotr32 25 st.e)
  let ch := (st.e &&& st.f) ^^^ ((st.e ^^^ (2 ^ 32 - 1)) &&& st.g)
  let temp1 := (st.hh + S1 + ch + k + w) % 2 ^ 32
  let S0 := (rotr32 2 st.a) ^^^ (rotr32 13 st.a) ^^^ (rotr32 22 st.a)
  let maj := (st.a &&& st.b) ^^^ (st.a &&& st.c) ^^^ (st.b &&& st.c)
  let temp2 := (S0 + maj) % 2 ^ 32
  { a := (temp1 + temp2) % 2 ^ 32, b := st.a, c := st.b, d := st.c,
    e := (st.d + temp1) % 2 ^ 32, f := st.e, g := st.f, hh := st.g }

/-- `sha256ProcessBlock`: compress one 64-byte block into the hash words. -/
def sha256ProcessBlock (h : List Nat) (block : List Nat) : List Nat :=
  let W := sha256Schedule block
  let st0 : RoundVars :=
    { a := h.getD 0 0, b := h.getD 1 0, c := h.getD 2 0, d := h.getD 3 0,
      e := h.getD 4 0, f := h.getD 5 0, g := h.getD 6 0, hh := h.getD 7 0 }
  let st := (List.range 64).foldl (fun st i => sha256Round st (K64.getD i 0) (W.getD i 0)) st0
  [(h.getD 0 0 + st.a) % 2 ^ 32, (h.getD 1 0 + st.b) % 2 ^ 32,
   (h.getD 2 0 + st.c) % 2 ^ 32, (h.getD 3 0 + st.d) % 2 ^ 32,
   (h.getD 4 0 + st.e) % 2 ^ 32, (h.getD 5 0 + st.f) % 2 ^ 32,
   (h.getD 6 0 + st.g) % 2 ^ 32, (h.getD 7 0 + st.hh) % 2 ^ 32]

/-- The mutable hash state of crypto.js: digest words `h`, the carry buffer
(only its `bufferLength` valid bytes are modelled), and `totalLength`. -/
structure Sha256State where
  h : List Nat
  buffer : List Nat
  totalLength : Nat
deriving Repr, DecidableEq

/-- `sha256Init()`. -/
def sha256Init : Sha256State :=
  { h := initH, buffer := [], totalLength := 0 }

/-- The `while (offset + 64 <= dataLen)` loop of `sha256Update`, fused with
the trailing `Buffer remaining data` step: compresses each complete 64-byte
block and returns the updated words together with the leftover bytes. -/
def sha256ProcessLoop (h : List Nat) (data : List Nat) : List Nat × List Nat :=
  if 64 ≤ data.length then
    sha256ProcessLoop (sha256ProcessBlock h (data.take 64)) (data.drop 64)
  else (h, data)
termination_by data.length
decreasing_by simp; omega

/-- `sha256Update(state, data)`: complete a buffered block if possible, then
process whole blocks straight from the input, then buffer the remainder. -/
def sha256Update (state : Sha256State) (data : List Nat) : Sha256State :=
  let dataLen := data.length
  let newTotal := state.totalLength + dataLen
  let step1 : List Nat × List Nat × Nat :=
    if 0 < state.buffer.length then
      let needed := 64 - state.buffer.length
      let toCopy := if needed < dataLen then needed else dataLen
      let buf := state.buffer ++ data.take toCopy
      if buf.length = 64 then (sha256ProcessBlock state.h buf, [], toCopy)
      else (state.h, buf, toCopy)
    else (state.h, state.buffer, 0)
  let rest := data.drop step1.2.2
  let looped := sha256ProcessLoop step1.1 rest
  { h := looped.1, buffer := step1.2.1 ++ looped.2, totalLength := newTotal }

/-- The eight big-endian bytes of the 64-bit bit-length suffix as built by
`sha256Final` (`highBits = Math.floor(totalBits / 0x100000000)`,
`lowBits = totalBits >>> 0`, then `>>>`/`& 0xff` extraction, which first
coerces `highBits` to 32 bits). -/
def jsBe64 (totalBits : Nat) : List Nat :=
  let highBits := totalBits / 2 ^ 32
  let lowBits := totalBits % 2 ^ 32
  [((highBits % 2 ^ 32) / 2 ^ 24) % 256, ((highBits % 2 ^ 32) / 2 ^ 16) % 256,
   ((highBits % 2 ^ 32) / 2 ^ 8) % 256, (highBits % 2 ^ 32) % 256,
   (lowBits / 2 ^ 24) % 256, (lowBits / 2 ^ 16) % 256,
   (lowBits / 2 ^ 8) % 256, lowBits % 256]

/-- The padding block built inside `sha256Final`: `0x80`, then zeros, then
the 64-bit big-endian bit length; `padLength` depends on `bufferLength`. -/
def sha256FinalPadding (totalLength bufferLength : Nat) : List Nat :=
  let totalBits := totalLength * 8
  let padLength := if bufferLength < 56 then 56 - bufferLength else 120 - bufferLength
  0x80 :: List.replicate (padLength - 1) 0 ++ jsBe64 totalBits

/-- The hex alphabet lookup of crypto.js. -/
def hexDigit (n : Nat) : Char :=
  "0123456789abcdef".toList.getD n '0'

/-- Eight hex characters of one 32-bit word, high nibble first
(the `(val >>> 28) & 0xf` … `val & 0xf` extraction of `sha256Final`). -/
def word32Hex (v : Nat) : List Char :=
  [hexDigit ((v / 2 ^ 28) % 16), hexDigit ((v / 2 ^ 24) % 16),
   hexDigit ((v / 2 ^ 20) % 16), hexDigit ((v / 2 ^ 16) % 16),
   hexDigit ((v / 2 ^ 12) % 16), hexDigit ((v / 2 ^ 8) % 16),
   hexDigit ((v / 2 ^ 4) % 16), hexDigit (v % 16)]

/-- Hex rendering of the eight hash words. -/
def sha256Digest (h : List Nat) : String :=
  String.mk ((h.map word32Hex).flatten)

/-- `sha256Final(state)`: append the padding via `sha256Update`, then render
the words as hex. -/
def sha256Final (state : Sha256State) : String :=
  let padding := sha256FinalPadding state.totalLength state.buffer.length
  let s := sha256Update state padding
  sha256Digest s.h

/-! ### Single-shot reference digest

Modelled from the spec: the single-shot small-file path of `calculateSHA256`
and `calculateSHA256FromBuffer` call the external primitive
`crypto.subtle.digest('SHA-256', buffer)`, which is not part of this
repository.  The spec fixes its semantics: "big-endian word state, standard
initial constants, standard padding with a 64-bit big-endian bit-length
suffix, block size 64 bytes, 64 compression rounds per block"; the standard
compression rounds are the `sha256ProcessBlock` rounds above. -/

/-- Modelled from the spec: the eight big-endian bytes of the 64-bit
bit-length field of the standard SHA-256 padding. -/
def specBe64 (n : Nat) : List Nat :=
  [(n / 2 ^ 56) % 256, (n / 2 ^ 48) % 256, (n / 2 ^ 40) % 256, (n / 2 ^ 32) % 256,
   (n / 2 ^ 24) % 256, (n / 2 ^ 16) % 256, (n / 2 ^ 8) % 256, n % 256]

/-- Modelled from the spec: standard SHA-256 padding — a `0x80` byte, the
minimal number of zero bytes reaching 56 mod 64, then the bit length. -/
def specPadding (len : Nat) : List Nat :=
  0x80 :: List.replicate ((119 - len % 64) % 64) 0 ++ specBe64 (len * 8)

/-- Modelled from the spec: compress the padded message 64 bytes at a time. -/
def sha256Blocks (h : List Nat) (msg : List Nat) : List Nat :=
  match msg with
  | [] => h
  | b :: rest => sha256Blocks (sha256ProcessBlock h ((b :: rest).take 64)) ((b :: rest).drop 64)
termination_by msg.length
decreasing_by simp; omega

/-- Modelled from the spec: the single-shot whole-buffer SHA-256 hex digest
(`crypto.subtle.digest` followed by hex rendering). -/
def sha256SingleShot (msg : List Nat) : String :=
  sha256Digest (sha256Blocks initH (msg ++ specPadding msg.length))

/-! ## Chunk codec, from the file-utils module (src/unnamed/part_004) -/

/-- One transfer chunk as consumed by `reassembleChunks`: a zero-based index
and the binary payload. -/
structure Chunk where
  index : Nat
  data : List Nat
deriving Repr, DecidableEq

/-- A `File` object as produced by the codec and the storage backends:
name, MIME type and content bytes. -/
structure FileRec where
  name : String
  mimeType : String
  data : List Nat
deriving Repr, DecidableEq

/-- The sort order of the comparator `(a, b) => a.index - b.index`. -/
def chunkIndexLe (a b : Chunk) : Prop := a.index ≤ b.index

/-- Strict version of the chunk sort order. -/
def chunkIndexLt (a b : Chunk) : Prop := a.index < b.index

instance : DecidableRel chunkIndexLe := fun a b => Nat.decLe a.index b.index

instance : IsTotal Chunk chunkIndexLe := ⟨fun a b => Nat.le_total a.index b.index⟩

instance : IsTrans Chunk chunkIndexLe := ⟨fun _ _ _ => Nat.le_trans⟩

instance : IsAntisymm Chunk chunkIndexLt := ⟨fun _ _ h1 h2 => absurd h1 (Nat.lt_asymm h2)⟩

/-- `reassembleChunks(chunks, fileName, mimeType)`: copy, sort by ascending
index (`Array.prototype.sort` is a stable sort — embedded as insertion
sort), concatenate the payloads into one buffer, and wrap the result as a
`File` with the given name and type. -/
def reassembleChunks (chunks : List Chunk) (fileName mimeType : String) : FileRec :=
  let sorted := List.insertionSort chunkIndexLe chunks
  { name := fileName, mimeType := mimeType, data := (sorted.map Chunk.data).flatten }

/-! ## Storage strategy detection (src/unnamed/part_005)

`detectBestStrategy` reads the environment through `isMobile()`,
`hasFileSystemAccess()` and `hasIndexedDB()`; the user-agent and capability
environment is passed as the three booleans `mobile`, `hasFS`, `hasIDB`. -/

/-- `THRESHOLDS.LARGE_FILE_WARNING` (1 GiB). -/
def LARGE_FILE_WARNING : Nat := 1 * 1024 * 1024 * 1024

/-- `THRESHOLDS.MOBILE_WARNING` (500 MiB). -/
def MOBILE_WARNING : Nat := 500 * 1024 * 1024

/-- `THRESHOLDS.MOBILE_INDEXEDDB_THRESHOLD` (100 MiB). -/
def MOBILE_INDEXEDDB_THRESHOLD : Nat := 100 * 1024 * 1024

/-- `THRESHOLDS.INDEXEDDB_MAX` (2 GiB). -/
def INDEXEDDB_MAX : Nat := 2 * 1024 * 1024 * 1024

/-- `THRESHOLDS.MEMORY_RECOMMENDED_MAX` (500 MiB). -/
def MEMORY_RECOMMENDED_MAX : Nat := 500 * 1024 * 1024

/-- The selected storage backend tag. -/
inductive StrategyTag where
  | filesystem
  | indexeddb
  | memory
deriving Repr, DecidableEq

/-- The result record of `detectBestStrategy`. -/
structure StrategyDetectionResult where
  strategy : StrategyTag
  supported : Bool
  warning : Option String
  recommendedBrowser : Option String
deriving Repr, DecidableEq

/-- `formatBytes`: human-readable size used inside warning texts.  The JS
original computes the unit index with floating-point `Math.log` and renders
two decimals with `toFixed`; it is embedded with `Nat.log` and integer
division.  No claim depends on the rendered text, only on the presence or
absence of a warning. -/
def formatBytes (bytes : Nat) : String :=
  if bytes = 0 then "0 Bytes"
  else
    let sizes := ["Bytes", "KB", "MB", "GB", "TB"]
    let i := Nat.log 1024 bytes
    toString (bytes / 1024 ^ i) ++ " " ++ sizes.getD i ""

/-- `detectBestStrategy(fileSize)` with the capability environment made
explicit: desktop with File System Access chooses `filesystem`; otherwise
IndexedDB if available (falling back to `memory` with a warning above the
2 GiB limit, and attaching mobile/desktop large-file warnings); otherwise
`memory` with a warning above 500 MiB. -/
def detectBestStrategy (mobile hasFS hasIDB : Bool) (fileSize : Nat) :
    StrategyDetectionResult :=
  if !mobile && hasFS then
    { strategy := .filesystem, supported := true, warning := none,
      recommendedBrowser := none }
  else if hasIDB then
    if INDEXEDDB_MAX < fileSize then
      { strategy := .memory, supported := true,
        warning := some ("File size (" ++ formatBytes fileSize ++
          ") exceeds IndexedDB limit. Transfer may fail for very large files."),
        recommendedBrowser := some "Chrome or Edge desktop browser" }
    else
      let wr : Option String × Option String :=
        if mobile && decide (MOBILE_WARNING < fileSize) then
          (some ("Large file (" ++ formatBytes fileSize ++
            ") on mobile device may cause memory issues."),
           some "Desktop browser for large files")
        else if !mobile && !hasFS && decide (LARGE_FILE_WARNING < fileSize) then
          (some ("Large file (" ++ formatBytes fileSize ++
            ") without File System API may cause performance issues."),
           some "Chrome or Edge for optimal performance")
        else (none, none)
      { strategy := .indexeddb, supported := true, warning := wr.1,
        recommendedBrowser := wr.2 }
  else if MEMORY_RECOMMENDED_MAX < fileSize then
    { strategy := .memory, supported := true,
      warning := some ("Large file (" ++ formatBytes fileSize ++
        ") with memory storage may cause browser crashes."),
      recommendedBrowser := some "Chrome or Edge desktop browser" }
  else
    { strategy := .memory, supported := true, warning := none,
      recommendedBrowser := none }

/-! ## IndexedDB storage backend (src/unnamed/part_005)

The shared object store (`FileTransferDB`/`chunks`, key path `id`) is
embedded as a list of records in insertion order; `store.put` is an upsert
on the primary key.  IndexedDB transactions are asynchronous but the
strategy awaits each one, so they are embedded as pure state transitions. -/

/-- One persisted record: `{id, sessionId, index, data}` with synthetic key
`id = sessionId ++ "_" ++ chunkIndex`. -/
structure ChunkRecord where
  id : String
  sessionId : String
  index : Nat
  data : List Nat
deriving Repr, DecidableEq

/-- The shared `chunks` object store. -/
abbrev IDBStore := List ChunkRecord

/-- `store.put(record)`: replace the record with the same primary key, or
append a new one. -/
def storePut (store : IDBStore) (r : ChunkRecord) : IDBStore :=
  if store.any (fun x => x.id == r.id) then
    store.map (fun x => if x.id == r.id then r else x)
  else store ++ [r]

/-- Sort order of the index-ascending comparator used by `finalize`. -/
def chunkRecordLe (a b : ChunkRecord) : Prop := a.index ≤ b.index

instance : DecidableRel chunkRecordLe := fun a b => Nat.decLe a.index b.index

instance : IsTotal ChunkRecord chunkRecordLe := ⟨fun a b => Nat.le_total a.index b.index⟩

instance : IsTrans ChunkRecord chunkRecordLe := ⟨fun _ _ _ => Nat.le_trans⟩

/-- The instance state of `IndexedDBStrategy` (the open database handle is
the `dbOpen` flag; the shared store travels alongside). -/
structure IndexedDBStrategy where
  dbOpen : Bool
  buffer : List ChunkRecord
  sessionId : String
  fileName : String
  fileSize : Nat
  mimeType : String
  chunksWritten : Nat
deriving Repr, DecidableEq

/-- `IndexedDBStrategy.BUFFER_SIZE`: flush the buffer at 50 chunks. -/
def IndexedDBStrategy.BUFFER_SIZE : Nat := 50

/-- `IndexedDBStrategy.init(fileName, fileSize, mimeType)`.  The generated
session id (`Date.now()` plus a random base-36 suffix) is an environment
input and is passed as a parameter; opening the database does not change
the shared store. -/
def idbInit (fileName : String) (fileSize : Nat) (mimeType : String)
    (sessionId : String) : IndexedDBStrategy :=
  { dbOpen := true, buffer := [], sessionId := sessionId, fileName := fileName,
    fileSize := fileSize,
    mimeType := if mimeType.isEmpty then "application/octet-stream" else mimeType,
    chunksWritten := 0 }

/-- `_flushBuffer()`: write every buffered record in one transaction, add
the flushed count to `chunksWritten` and clear the buffer. -/
def idbFlushBuffer (s : IndexedDBStrategy) (store : IDBStore) :
    IndexedDBStrategy × IDBStore :=
  if s.buffer.isEmpty then (s, store)
  else
    let store1 := s.buffer.foldl storePut store
    ({ s with chunksWritten := s.chunksWritten + s.buffer.length, buffer := [] },
     store1)

/-- The record literal pushed by `writeChunk`: synthetic key
`sessionId_chunkIndex`, the session tag, the index and a defensive copy of
the payload. -/
def mkSessionRecord (sessionId : String) (chunkIndex : Nat) (data : List Nat) :
    ChunkRecord :=
  { id := sessionId ++ "_" ++ toString chunkIndex, sessionId := sessionId,
    index := chunkIndex, data := data }

/-- `writeChunk(chunkIndex, data)`: defensively copy the payload, append the
record to the in-memory buffer, and flush when the buffer reaches
`BUFFER_SIZE`.  Throws when not initialized. -/
def idbWriteChunk (s : IndexedDBStrategy) (store : IDBStore) (chunkIndex : Nat)
    (data : List Nat) : Except String (IndexedDBStrategy × IDBStore) :=
  if !s.dbOpen then .error "IndexedDBStrategy not initialized"
  else
    let s1 := { s with buffer := s.buffer ++ [mkSessionRecord s.sessionId chunkIndex data] }
    if IndexedDBStrategy.BUFFER_SIZE ≤ s1.buffer.length then
      .ok (idbFlushBuffer s1 store)
    else .ok (s1, store)

/-- Sequential composition of `writeChunk` calls, as the receive loop
performs them (each call is awaited before the next). -/
def idbWriteMany (s : IndexedDBStrategy) (store : IDBStore)
    (ws : List (Nat × List Nat)) : Except String (IndexedDBStrategy × IDBStore) :=
  match ws with
  | [] => .ok (s, store)
  | (i, d) :: rest =>
    match idbWriteChunk s store i d with
    | .error e => .error e
    | .ok p => idbWriteMany p.1 p.2 rest

/-- `_getAllChunks()`: every record of this session id. -/
def idbGetAllChunks (s : IndexedDBStrategy) (store : IDBStore) : List ChunkRecord :=
  store.filter (fun r => r.sessionId == s.sessionId)

/-- `finalize()`: flush the remainder, read back this session's records,
sort by index and concatenate into a `File` named as initialized. -/
def idbFinalize (s : IndexedDBStrategy) (store : IDBStore) :
    Except String (IndexedDBStrategy × IDBStore × FileRec) :=
  if !s.dbOpen then .error "IndexedDBStrategy not initialized"
  else
    let flushed := idbFlushBuffer s store
    let chunks := idbGetAllChunks flushed.1 flushed.2
    let sorted := List.insertionSort chunkRecordLe chunks
    .ok (flushed.1, flushed.2,
      { name := flushed.1.fileName, mimeType := flushed.1.mimeType,
        data := (sorted.map ChunkRecord.data).flatten })

/-- `cleanup()`: clear the buffer, collect the primary keys of this
session's records (`getAllKeys` on the `sessionId` index), delete exactly
those keys, and close the database handle.  A no-op when the handle is
already closed. -/
def idbCleanup (s : IndexedDBStrategy) (store : IDBStore) :
    IndexedDBStrategy × IDBStore :=
  if !s.dbOpen then (s, store)
  else
    let keys := (store.filter (fun r => r.sessionId == s.sessionId)).map ChunkRecord.id
    let store1 := store.filter (fun r => !(keys.contains r.id))
    ({ s with buffer := [], dbOpen := false }, store1)

/-! ## Receiver message handler (TransferPage, src/unnamed/part_007)

`handleMessage` demultiplexes the data-channel stream: JSON control
messages (`meta` / `chunk` header / `complete`) and raw binary payloads.
The UI progress/speed bookkeeping is not modelled; the storage-strategy
write and the in-memory fallback both append to the single `storageWrites`
log (the claims count how often a chunk is applied to storage). -/

/-- The `meta` message fields (the sender's digest travels separately via
relay `file-meta`, kept optional here). -/
structure FileMeta where
  name : String
  size : Nat
  mimeType : String
  totalChunks : Nat
  hash : Option String
deriving Repr, DecidableEq

/-- Incoming data-channel messages as seen by `handleMessage`. -/
inductive RMsg where
  | meta (m : FileMeta)
  | chunkHeader (index size : Nat)
  | binary (data : List Nat)
  | complete
deriving Repr, DecidableEq

/-- The page status values. -/
inductive RStatus where
  | connecting
  | transferring
  | verifying
  | complete
  | error
deriving Repr, DecidableEq

/-- The receiver-side mutable refs of TransferPage. -/
structure ReceiverState where
  transferComplete : Bool
  fileMeta : Option FileMeta
  expectedChunks : Nat
  pendingChunkIndex : Option Nat
  receivedChunksSet : List Nat
  receivedBytes : Nat
  storageWrites : List (Nat × List Nat)
  status : RStatus
deriving Repr, DecidableEq

/-- The refs as reset on receiver mount. -/
def initialReceiverState : ReceiverState :=
  { transferComplete := false, fileMeta := none, expectedChunks := 0,
    pendingChunkIndex := none, receivedChunksSet := [], receivedBytes := 0,
    storageWrites := [], status := .connecting }

/-- One `handleMessage(data)` call.  A binary payload is paired with the
pending chunk header; an index already in `receivedChunksSet` is silently
dropped, otherwise the chunk is recorded and written and its byte length
added to `receivedBytes`.  A `chunk` header sets (or clears, when already
received) the pending index; `meta` is accepted once; `complete` marks the
transfer complete (`handleTransferComplete`, embedded separately). -/
def handleMessage (st : ReceiverState) (msg : RMsg) : ReceiverState :=
  if st.transferComplete then st
  else
    match msg with
    | .binary data =>
      match st.pendingChunkIndex with
      | none => { st with pendingChunkIndex := none }
      | some chunkIndex =>
        let st1 := { st with pendingChunkIndex := none }
        if st1.receivedChunksSet.contains chunkIndex then st1
        else
          { st1 with
            receivedChunksSet := st1.receivedChunksSet ++ [chunkIndex],
            storageWrites := st1.storageWrites ++ [(chunkIndex, data)],
            receivedBytes := st1.receivedBytes + data.length }
    | .meta m =>
      if st.fileMeta.isSome then st
      else
        { st with
          fileMeta := some m, expectedChunks := m.totalChunks,
          status := .transferring }
    | .chunkHeader index _ =>
      if st.receivedChunksSet.contains index then
        { st with pendingChunkIndex := none }
      else
        { st with pendingChunkIndex := some index }
    | .complete =>
      { st with transferComplete := true, status := .verifying }

/-- Folding an incoming message sequence through `handleMessage`. -/
def processMessages (st : ReceiverState) (msgs : List RMsg) : ReceiverState :=
  msgs.foldl handleMessage st

/-- How many times a chunk index was applied to storage. -/
def countStorageWrites (st : ReceiverState) (i : Nat) : Nat :=
  (st.storageWrites.filter (fun w => w.1 == i)).length

/-! ## Transfer-complete handling (src/unnamed/part_007, C8) -/

/-- The result of `strategy.finalize()`: the direct-disk backend returns a
handle plus byte count, the other two return an assembled `File`. -/
inductive StorageResult where
  | filesystem (bytesWritten : Nat)
  | indexeddb (file : FileRec)
  | memory (file : FileRec)
deriving Repr, DecidableEq

/-- The externally visible effects of `handleTransferComplete`: whether a
digest was recomputed over the assembled file, the `setReceivedFile` /
`setHashVerified` / `setStatus` calls and the `transfer-complete` emit
(each `none` when the call did not happen). -/
structure CompleteOutcome where
  digestRecomputed : Bool
  setReceivedFile : Option (Option FileRec)
  setHashVerified : Option Bool
  emittedVerified : Option Bool
  setStatus : Option RStatus
deriving Repr, DecidableEq

/-- `handleTransferComplete()` given the guard flag, the received metadata
and the storage backend's finalize result: the `filesystem` result type
skips hash verification and reports `verified = true`; the other result
types recompute the digest of the assembled file and compare it with the
sender's digest string. -/
def handleTransferComplete (transferComplete : Bool) (meta : Option FileMeta)
    (finalizeResult : StorageResult) : CompleteOutcome :=
  if transferComplete then
    { digestRecomputed := false, setReceivedFile := none, setHashVerified := none,
      emittedVerified := none, setStatus := none }
  else
    match meta with
    | none =>
      { digestRecomputed := false, setReceivedFile := none, setHashVerified := none,
        emittedVerified := none, setStatus := some .error }
    | some m =>
      match finalizeResult with
      | .filesystem _ =>
        { digestRecomputed := false, setReceivedFile := some none,
          setHashVerified := some true, emittedVerified := some true,
          setStatus := some .complete }
      | .indexeddb f | .memory f =>
        let receivedHash := sha256SingleShot f.data
        let isVerified := match m.hash with
          | some original => receivedHash == original
          | none => false
        { digestRecomputed := true, setReceivedFile := some (some f),
          setHashVerified := some isVerified, emittedVerified := some isVerified,
          setStatus := some .complete }

/-! ## Chunked hashing progress reports (crypto.js, C9) -/

/-- The 16 MiB slice size of `calculateSHA256Chunked`. -/
def HASH_CHUNK_SIZE : Nat := 16 * 1024 * 1024

/-- The 100 MiB single-shot threshold of `calculateSHA256`. -/
def SMALL_FILE_THRESHOLD : Nat := 100 * 1024 * 1024

/-- `Math.round((end / totalSize) * 100)` in exact rational arithmetic:
`floor(100 * e / total + 1 / 2)`. -/
def jsRound100 (e total : Nat) : Nat :=
  (200 * e + total) / (2 * total)

/-- The successive values of `end` taken by the read loop of
`calculateSHA256Chunked` (`end = min(offset + CHUNK_SIZE, totalSize)`). -/
def chunkedEnds (offset total : Nat) : List Nat :=
  if offset < total then
    min (offset + HASH_CHUNK_SIZE) total :: chunkedEnds (min (offset + HASH_CHUNK_SIZE) total) total
  else []
termination_by total - offset
decreasing_by simp [HASH_CHUNK_SIZE]; omega

/-- The sequence of percent values passed to `onProgress` by
`calculateSHA256Chunked`, one per slice. -/
def chunkedProgressReports (total : Nat) : List Nat :=
  (chunkedEnds 0 total).map (fun e => jsRound100 e total)

/-- The `onProgress` percent sequence of `calculateSHA256`: small files use
the native single-shot path (10, 50, 100), larger files the chunked path. -/
def calculateSHA256Reports (size : Nat) : List Nat :=
  if size < SMALL_FILE_THRESHOLD then [10, 50, 100]
  else chunkedProgressReports size

/-! ## Data-channel receive path (TransferContext.jsx, C10) -/

/-- The connection-level receive state of `setupDataChannel`: the incoming
sequence counter, the processed-sequence history set (a JS `Set` iterated
in insertion order), the handler slot and the pending-message queue.
Message payloads are abstracted as `Nat` tokens. -/
structure ChannelState where
  messageSeq : Nat
  processedMessages : List Nat
  handlerAttached : Bool
  messageQueue : List Nat
  delivered : List Nat
deriving Repr, DecidableEq

/-- What `channel.onmessage` did with one arriving message. -/
inductive MsgAction where
  | dropped
  | forwarded
  | queued
deriving Repr, DecidableEq

/-- `channel.onmessage`: take a fresh sequence number, drop the message if
that number was already processed, otherwise record it (pruning the oldest
500 entries past 1000), then forward to the handler or queue it. -/
def onChannelMessage (st : ChannelState) (d : Nat) : ChannelState × MsgAction :=
  let seq := st.messageSeq
  let st1 := { st with messageSeq := seq + 1 }
  if st1.processedMessages.contains seq then (st1, .dropped)
  else
    let st2 := { st1 with processedMessages := st1.processedMessages ++ [seq] }
    let st3 :=
      if 1000 < st2.processedMessages.length then
        { st2 with processedMessages := st2.processedMessages.drop 500 }
      else st2
    if st3.handlerAttached then
      ({ st3 with delivered := st3.delivered ++ [d] }, .forwarded)
    else
      ({ st3 with messageQueue := st3.messageQueue ++ [d] }, .queued)

/-- Events hitting the connection state: a channel message, or
`setMessageHandler` with a function (which replays the queue in order) or
with `null`. -/
inductive ChannelEvent where
  | message (d : Nat)
  | attachHandler
  | detachHandler
deriving Repr, DecidableEq

/-- One event transition of the connection state. -/
def channelStep (st : ChannelState) (ev : ChannelEvent) : ChannelState :=
  match ev with
  | .message d => (onChannelMessage st d).1
  | .attachHandler =>
    { st with
      handlerAttached := true, delivered := st.delivered ++ st.messageQueue,
      messageQueue := [] }
  | .detachHandler => { st with handlerAttached := false }

/-- The fresh connection state. -/
def initialChannelState : ChannelState :=
  { messageSeq := 0, processedMessages := [], handlerAttached := false,
    messageQueue := [], delivered := [] }

/-- The connection state after an arbitrary event history. -/
def runChannel (evs : List ChannelEvent) : ChannelState :=
  evs.foldl channelStep initialChannelState

/-! ## Supporting lemmas: the hashing engine -/

theorem sha256ProcessLoop_small (h l : List Nat) (hl : l.length < 64) :
    sha256ProcessLoop h l = (h, l) := by
  rw [sha256ProcessLoop]
  simp [Nat.not_le.mpr hl]

theorem sha256ProcessLoop_block (h l : List Nat) (hl : 64 ≤ l.length) :
    sha256ProcessLoop h l
      = sha256ProcessLoop (sha256ProcessBlock h (l.take 64)) (l.drop 64) := by
  rw [sha256ProcessLoop]
  simp [hl]

theorem sha256ProcessLoop_append_aux : ∀ (n : Nat) (a h b : List Nat), a.length = n →
    sha256ProcessLoop h (a ++ b)
      = sha256ProcessLoop (sha256ProcessLoop h a).1 ((sha256ProcessLoop h a).2 ++ b) := by
  intro n
  induction n using Nat.strong_induction_on with
  | _ n ih =>
    intro a h b hn
    by_cases hl : 64 ≤ a.length
    · have h1 : 64 ≤ (a ++ b).length := by simp; omega
      rw [sha256ProcessLoop_block _ _ h1, sha256ProcessLoop_block _ _ hl,
        List.take_append_of_le_length (by omega), List.drop_append_of_le_length (by omega)]
      exact ih (a.drop 64).length (by simp; omega) _ _ _ rfl
    · rw [sha256ProcessLoop_small _ _ (Nat.not_le.mp hl)]

theorem sha256ProcessLoop_append (h a b : List Nat) :
    sha256ProcessLoop h (a ++ b)
      = sha256ProcessLoop (sha256ProcessLoop h a).1 ((sha256ProcessLoop h a).2 ++ b) :=
  sha256ProcessLoop_append_aux a.length a h b rfl

theorem sha256ProcessLoop_snd_length_aux : ∀ (n : Nat) (h l : List Nat), l.length = n →
    (sha256ProcessLoop h l).2.length = l.length % 64 := by
  intro n
  induction n using Nat.strong_induction_on with
  | _ n ih =>
    intro h l hn
    by_cases hl : 64 ≤ l.length
    · rw [sha256ProcessLoop_block _ _ hl]
      rw [ih (l.drop 64).length (by simp; omega) _ _ rfl]
      simp
      omega
    · rw [sha256ProcessLoop_small _ _ (Nat.not_le.mp hl)]
      simp
      omega

theorem sha256ProcessLoop_snd_length (h l : List Nat) :
    (sha256ProcessLoop h l).2.length = l.length % 64 :=
  sha256ProcessLoop_snd_length_aux l.length h l rfl

theorem sha256Update_eq_loop (s : Sha256State) (data : List Nat)
    (hb : s.buffer.length < 64) :
    sha256Update s data
      = { h := (sha256ProcessLoop s.h (s.buffer ++ data)).1,
          buffer := (sha256ProcessLoop s.h (s.buffer ++ data)).2,
          totalLength := s.totalLength + data.length } := by
  rcases Nat.eq_zero_or_pos s.buffer.length with h0 | h0
  · -- empty carry buffer: the update loop runs on the input alone
    have hnil : s.buffer = [] := List.eq_nil_of_length_eq_zero h0
    simp [sha256Update, hnil]
  · by_cases hsmall : data.length < 64 - s.buffer.length
    · -- input too short to complete the buffered block: everything buffered
      have ht : ¬ (64 - s.buffer.length < data.length) := by omega
      have hfull : ¬ (s.buffer.length + data.length = 64) := by omega
      rw [sha256ProcessLoop_small _ _ (by simp; omega)]
      simp [sha256Update, h0, ht, hfull, List.drop_length,
        sha256ProcessLoop_small _ [] (by simp)]
    · -- the buffered block is completed and compressed first
      have hge : 64 - s.buffer.length ≤ data.length := by omega
      have ht : (if 64 - s.buffer.length < data.length
          then 64 - s.buffer.length else data.length) = 64 - s.buffer.length := by
        rcases Nat.lt_or_ge (64 - s.buffer.length) data.length with h | h
        · simp [h]
        · simp [Nat.not_lt.mpr h]; omega
      have hlen : 64 ≤ (s.buffer ++ data).length := by simp; omega
      rw [sha256ProcessLoop_block _ _ hlen]
      have h64 : (64 : Nat) = s.buffer.length + (64 - s.buffer.length) := by omega
      rw [h64, List.take_append, List.drop_append]
      have hfull : s.buffer.length + min (64 - s.buffer.length) data.length = 64 := by
        rw [Nat.min_eq_left hge]; omega
      simp [sha256Update, h0, ht, hfull]

theorem sha256Update_inv (msg data : List Nat) (s : Sha256State)
    (h1 : s.h = (sha256ProcessLoop initH msg).1)
    (h2 : s.buffer = (sha256ProcessLoop initH msg).2)
    (h3 : s.totalLength = msg.length) :
    (sha256Update s data).h = (sha256ProcessLoop initH (msg ++ data)).1 ∧
    (sha256Update s data).buffer = (sha256ProcessLoop initH (msg ++ data)).2 ∧
    (sha256Update s data).totalLength = (msg ++ data).length := by
  have hb : s.buffer.length < 64 := by
    rw [h2, sha256ProcessLoop_snd_length]; omega
  rw [sha256Update_eq_loop s data hb, sha256ProcessLoop_append initH msg data, ← h1, ← h2]
  simp [h3]

theorem sha256_foldl_inv : ∀ (slices : List (List Nat)) (msg : List Nat) (s : Sha256State),
    s.h = (sha256ProcessLoop initH msg).1 →
    s.buffer = (sha256ProcessLoop initH msg).2 →
    s.totalLength = msg.length →
    (List.foldl sha256Update s slices).h
        = (sha256ProcessLoop initH (msg ++ slices.flatten)).1 ∧
    (List.foldl sha256Update s slices).buffer
        = (sha256ProcessLoop initH (msg ++ slices.flatten)).2 ∧
    (List.foldl sha256Update s slices).totalLength = (msg ++ slices.flatten).length := by
  intro slices
  induction slices with
  | nil => intro msg s h1 h2 h3; simpa using ⟨h1, h2, h3⟩
  | cons d rest ih =>
    intro msg s h1 h2 h3
    obtain ⟨g1, g2, g3⟩ := sha256Update_inv msg d s h1 h2 h3
    have := ih (msg ++ d) (sha256Update s d) g1 g2 (by simpa using g3)
    simpa [List.append_assoc] using this

theorem jsBe64_eq_specBe64 (n : Nat) : jsBe64 n = specBe64 n := by
  simp only [jsBe64, specBe64, List.cons.injEq, and_true]
  norm_num
  omega

theorem sha256FinalPadding_eq_spec (len : Nat) :
    sha256FinalPadding len (len % 64) = specPadding len := by
  have hc : (if len % 64 < 56 then 56 - len % 64 else 120 - len % 64) - 1
      = (119 - len % 64) % 64 := by
    split_ifs <;> omega
  simp only [sha256FinalPadding, specPadding, jsBe64_eq_specBe64, hc]

theorem specPadding_mod (msg : List Nat) :
    (msg ++ specPadding msg.length).length % 64 = 0 := by
  simp [specPadding, specBe64]
  omega

theorem sha256Blocks_eq_loop_aux : ∀ (n : Nat) (h m : List Nat), m.length = n →
    m.length % 64 = 0 → sha256Blocks h m = (sha256ProcessLoop h m).1 := by
  intro n
  induction n using Nat.strong_induction_on with
  | _ n ih =>
    intro h m hn hm
    match m with
    | [] => rw [sha256Blocks, sha256ProcessLoop_small _ _ (by simp)]
    | b :: rest =>
      simp only [List.length_cons] at hm hn
      have hl : 64 ≤ (b :: rest).length := by simp only [List.length_cons]; omega
      rw [sha256Blocks, sha256ProcessLoop_block _ _ hl]
      exact ih ((b :: rest).drop 64).length (by simp; omega) _ _ rfl (by simp; omega)

/-- C1. Feeding any slicing of any byte input to the incremental path
(`sha256Init`, `sha256Update` per slice, `sha256Final`) produces the same hex
digest as the single-shot SHA-256 digest of the concatenated input; this
covers inputs of arbitrary bit length (the 64-bit length split) and slicings
that leave partial bytes in the carry buffer. -/
theorem sha256_incremental_eq_single_shot (slices : List (List Nat)) :
    sha256Final (List.foldl sha256Update sha256Init slices)
      = sha256SingleShot slices.flatten := by
  obtain ⟨h1, h2, h3⟩ := sha256_foldl_inv slices [] sha256Init
    (by rw [sha256ProcessLoop_small _ _ (by simp)]; rfl)
    (by rw [sha256ProcessLoop_small _ _ (by simp)]; rfl)
    rfl
  simp only [List.nil_append] at h1 h2 h3
  set s := List.foldl sha256Update sha256Init slices with hs
  set msg := slices.flatten with hmsg
  have hblen : s.buffer.length = msg.length % 64 := by
    rw [h2, sha256ProcessLoop_snd_length]
  rw [sha256Final, hblen, h3, sha256FinalPadding_eq_spec]
  obtain ⟨g1, _, _⟩ := sha256Update_inv msg (specPadding msg.length) s h1 h2 h3
  rw [sha256SingleShot, sha256Blocks_eq_loop_aux (msg ++ specPadding msg.length).length initH
    (msg ++ specPadding msg.length) rfl (specPadding_mod msg), ← g1]

/-! ## Supporting lemmas: chunk codec -/

theorem insertionSort_sorted_lt (l : List Chunk)
    (hnd : (l.map Chunk.index).Nodup) :
    List.Sorted chunkIndexLt (List.insertionSort chunkIndexLe l) := by
  have hsp : (List.insertionSort chunkIndexLe l).Perm l := List.perm_insertionSort _ _
  have hnds : ((List.insertionSort chunkIndexLe l).map Chunk.index).Nodup :=
    ((hsp.map Chunk.index).nodup_iff).mpr hnd
  have hne := (List.pairwise_map).mp hnds
  have hle : List.Pairwise chunkIndexLe (List.insertionSort chunkIndexLe l) :=
    List.sorted_insertionSort chunkIndexLe l
  exact (hle.and hne).imp fun h => Nat.lt_of_le_of_ne h.1 h.2

/-- C2. For every non-empty chunk collection whose indices are exactly
`0..n-1`, `reassembleChunks` gives a byte-identical result on every
permutation of the input, and the result size is the sum of the chunk data
lengths. -/
theorem reassembleChunks_perm_invariant (l1 l2 : List Chunk) (n : Nat)
    (fileName mimeType : String)
    (hidx : (l1.map Chunk.index).Perm (List.range n)) (hn : 0 < n)
    (hperm : l1.Perm l2) :
    reassembleChunks l1 fileName mimeType = reassembleChunks l2 fileName mimeType ∧
    (reassembleChunks l1 fileName mimeType).data.length
      = (l1.map fun c => c.data.length).sum := by
  have hnd1 : (l1.map Chunk.index).Nodup := hidx.symm.nodup (List.nodup_range n)
  have hnd2 : (l2.map Chunk.index).Nodup := ((hperm.map Chunk.index).nodup_iff).mp hnd1
  have hp : (List.insertionSort chunkIndexLe l1).Perm (List.insertionSort chunkIndexLe l2) :=
    (List.perm_insertionSort _ _).trans (hperm.trans (List.perm_insertionSort _ _).symm)
  have heq : List.insertionSort chunkIndexLe l1 = List.insertionSort chunkIndexLe l2 :=
    List.eq_of_perm_of_sorted hp (insertionSort_sorted_lt l1 hnd1)
      (insertionSort_sorted_lt l2 hnd2)
  constructor
  · simp only [reassembleChunks, heq]
  · simp only [reassembleChunks, List.length_flatten, List.map_map]
    exact ((List.perm_insertionSort chunkIndexLe l1).map
      fun c => (Chunk.data c).length).sum_eq

theorem reassembleChunks_perm_invariant_witness :
    reassembleChunks [⟨1, [5]⟩, ⟨0, [2, 3]⟩] "f" "m"
        = reassembleChunks [⟨0, [2, 3]⟩, ⟨1, [5]⟩] "f" "m" ∧
    (reassembleChunks [⟨1, [5]⟩, ⟨0, [2, 3]⟩] "f" "m").data.length
        = (([⟨1, [5]⟩, ⟨0, [2, 3]⟩] : List Chunk).map fun c => c.data.length).sum :=
  reassembleChunks_perm_invariant [⟨1, [5]⟩, ⟨0, [2, 3]⟩] [⟨0, [2, 3]⟩, ⟨1, [5]⟩] 2
    "f" "m" (by decide) (by decide) (by decide)

/-! ## Supporting lemmas: strategy detection -/

/-- C3. In any environment without the File System Access capability but
with IndexedDB, `detectBestStrategy` selects `indexeddb` for every size
below 2 GiB, and `memory` with a warning and a browser recommendation for
every size above 2 GiB. -/
theorem detectBestStrategy_no_fs_with_idb (mobile : Bool) (size : Nat) :
    (size < INDEXEDDB_MAX →
      (detectBestStrategy mobile false true size).strategy = StrategyTag.indexeddb) ∧
    (INDEXEDDB_MAX < size →
      (detectBestStrategy mobile false true size).strategy = StrategyTag.memory ∧
      (detectBestStrategy mobile false true size).warning.isSome = true ∧
      (detectBestStrategy mobile false true size).recommendedBrowser.isSome = true) := by
  constructor
  · intro h
    have h1 : ¬ INDEXEDDB_MAX < size := by omega
    cases mobile <;> simp [detectBestStrategy, h1]
  · intro h
    cases mobile <;> simp [detectBestStrategy, h]

theorem detectBestStrategy_no_fs_with_idb_witness :
    (detectBestStrategy false false true 1000).strategy = StrategyTag.indexeddb ∧
    ((detectBestStrategy true false true 2147483649).strategy = StrategyTag.memory ∧
      (detectBestStrategy true false true 2147483649).warning.isSome = true ∧
      (detectBestStrategy true false true 2147483649).recommendedBrowser.isSome = true) :=
  ⟨(detectBestStrategy_no_fs_with_idb false 1000).1 (by decide),
   (detectBestStrategy_no_fs_with_idb true 2147483649).2 (by decide)⟩

/-- C4. Warning thresholds are exact: a desktop user agent without the
filesystem capability (database present) warns iff the size exceeds 1 GiB;
a mobile user agent with the database capability warns iff the size exceeds
500 MiB; with neither capability a warning appears iff the size exceeds
500 MiB; at each exact threshold no warning is attached. -/
theorem detectBestStrategy_warning_thresholds (size : Nat) :
    ((detectBestStrategy false false true size).warning.isSome = true
        ↔ LARGE_FILE_WARNING < size) ∧
    (∀ hasFS : Bool, (detectBestStrategy true hasFS true size).warning.isSome = true
        ↔ MOBILE_WARNING < size) ∧
    (∀ mobile : Bool, (detectBestStrategy mobile false false size).warning.isSome = true
        ↔ MEMORY_RECOMMENDED_MAX < size) := by
  refine ⟨?_, ?_, ?_⟩
  · by_cases h1 : INDEXEDDB_MAX < size
    · have h2 : LARGE_FILE_WARNING < size := by
        simp only [INDEXEDDB_MAX] at h1
        simp only [LARGE_FILE_WARNING]
        omega
      simp [detectBestStrategy, h1, h2]
    · by_cases h2 : LARGE_FILE_WARNING < size
      · simp [detectBestStrategy, h1, h2]
      · simp [detectBestStrategy, h1, h2]
  · intro hasFS
    by_cases h1 : INDEXEDDB_MAX < size
    · have h2 : MOBILE_WARNING < size := by
        simp only [INDEXEDDB_MAX] at h1
        simp only [MOBILE_WARNING]
        omega
      simp [detectBestStrategy, h1, h2]
    · by_cases h2 : MOBILE_WARNING < size
      · simp [detectBestStrategy, h1, h2]
      · simp [detectBestStrategy, h1, h2]
  · intro mobile
    by_cases h1 : MEMORY_RECOMMENDED_MAX < size
    · cases mobile <;> simp [detectBestStrategy, h1]
    · cases mobile <;> simp [detectBestStrategy, h1]

/-! ## Supporting lemmas: transfer completion -/

/-- C8. On the complete signal, a `filesystem` finalize result makes the
receiver skip digest recomputation, report `verified = true` to the peer
and transition to the complete state; the digest comparison path is taken
exactly for the `indexeddb` and `memory` result types. -/
theorem transfer_complete_filesystem_skips_verification
    (m : FileMeta) (bw : Nat) (f : FileRec) :
    handleTransferComplete false (some m) (StorageResult.filesystem bw)
      = { digestRecomputed := false, setReceivedFile := some none,
          setHashVerified := some true, emittedVerified := some true,
          setStatus := some RStatus.complete } ∧
    (handleTransferComplete false (some m) (StorageResult.indexeddb f)).digestRecomputed
      = true ∧
    (handleTransferComplete false (some m) (StorageResult.memory f)).digestRecomputed
      = true :=
  ⟨rfl, rfl, rfl⟩

/-! ## Supporting lemmas: data-channel receive path -/

theorem onChannelMessage_messageSeq (st : ChannelState) (d : Nat) :
    ((onChannelMessage st d).1).messageSeq = st.messageSeq + 1 := by
  simp only [onChannelMessage]
  split_ifs <;> rfl

theorem onChannelMessage_processed_subset (st : ChannelState) (d x : Nat)
    (hx : x ∈ ((onChannelMessage st d).1).processedMessages) :
    x ∈ st.processedMessages ++ [st.messageSeq] := by
  simp only [onChannelMessage] at hx
  split_ifs at hx with h1 h2 h3 h3
  · exact List.mem_append_left _ hx
  · exact List.mem_of_mem_drop hx
  · exact List.mem_of_mem_drop hx
  · exact hx
  · exact hx

theorem channelStep_inv (st : ChannelState) (ev : ChannelEvent)
    (hinv : ∀ x ∈ st.processedMessages, x < st.messageSeq) :
    ∀ x ∈ (channelStep st ev).processedMessages, x < (channelStep st ev).messageSeq := by
  cases ev with
  | message d =>
    intro x hx
    rw [channelStep] at hx ⊢
    rw [onChannelMessage_messageSeq]
    rcases List.mem_append.mp (onChannelMessage_processed_subset st d x hx) with h | h
    · exact Nat.lt_succ_of_lt (hinv x h)
    · simp only [List.mem_singleton] at h
      omega
  | attachHandler => exact hinv
  | detachHandler => exact hinv

theorem runChannel_inv (evs : List ChannelEvent) :
    ∀ x ∈ (runChannel evs).processedMessages, x < (runChannel evs).messageSeq := by
  have main : ∀ (evs : List ChannelEvent) (st : ChannelState),
      (∀ x ∈ st.processedMessages, x < st.messageSeq) →
      ∀ x ∈ (evs.foldl channelStep st).processedMessages,
        x < (evs.foldl channelStep st).messageSeq := by
    intro evs
    induction evs with
    | nil => intro st h; exact h
    | cons e rest ih => intro st h; exact ih (channelStep st e) (channelStep_inv st e h)
  exact main evs initialChannelState (by simp [initialChannelState])

/-- C10. The connection-level sequence-number filter never discards a
message: every arriving data-channel message, after any event history, is
either forwarded to the attached handler or appended to the pending queue
(the duplicate-drop branch is unreachable because each message receives a
fresh sequence number). -/
theorem channel_seq_filter_never_drops (evs : List ChannelEvent) (d : Nat) :
    (onChannelMessage (runChannel evs) d).2 = MsgAction.forwarded ∨
    (onChannelMessage (runChannel evs) d).2 = MsgAction.queued := by
  have hinv := runChannel_inv evs
  have hmem : (runChannel evs).messageSeq ∉ (runChannel evs).processedMessages :=
    fun hm => absurd (hinv _ hm) (Nat.lt_irrefl _)
  have hc : ((runChannel evs).processedMessages.contains (runChannel evs).messageSeq)
      = false := by simpa using hmem
  simp only [onChannelMessage, hc, Bool.false_eq_true, if_false]
  by_cases ha : (runChannel evs).handlerAttached = true
  · split <;> simp [ha]
  · simp only [Bool.not_eq_true] at ha
    split <;> simp [ha]

/-! ## Supporting lemmas: IndexedDB backend -/

theorem idbFlushBuffer_buffer (s : IndexedDBStrategy) (store : IDBStore) :
    (idbFlushBuffer s store).1.buffer = [] := by
  rw [idbFlushBuffer]
  split
  · rename_i h
    exact List.isEmpty_iff.mp h
  · rfl

theorem idbFlushBuffer_fields (s : IndexedDBStrategy) (store : IDBStore) :
    (idbFlushBuffer s store).1.dbOpen = s.dbOpen ∧
    (idbFlushBuffer s store).1.fileName = s.fileName ∧
    (idbFlushBuffer s store).1.mimeType = s.mimeType := by
  rw [idbFlushBuffer]
  split <;> exact ⟨rfl, rfl, rfl⟩

theorem idbWriteMany_no_flush : ∀ (ws : List (Nat × List Nat))
    (s : IndexedDBStrategy) (store : IDBStore), s.dbOpen = true →
    s.buffer.length + ws.length < IndexedDBStrategy.BUFFER_SIZE →
    idbWriteMany s store ws
      = .ok ({ s with
               buffer := s.buffer ++ ws.map fun w => mkSessionRecord s.sessionId w.1 w.2 },
             store) := by
  intro ws
  induction ws with
  | nil =>
    intro s store hopen hlen
    simp [idbWriteMany]
  | cons w rest ih =>
    obtain ⟨i, d⟩ := w
    intro s store hopen hlen
    simp only [List.length_cons, IndexedDBStrategy.BUFFER_SIZE] at hlen
    have hnof : ¬ (IndexedDBStrategy.BUFFER_SIZE ≤
        ({ s with buffer := s.buffer ++ [mkSessionRecord s.sessionId i d] }
          : IndexedDBStrategy).buffer.length) := by
      simp only [IndexedDBStrategy.BUFFER_SIZE, List.length_append, List.length_cons,
        List.length_nil]
      omega
    rw [idbWriteMany, idbWriteChunk]
    simp only [hopen, Bool.not_true, Bool.false_eq_true, if_false, if_neg hnof]
    rw [ih _ store (by rfl) (by simpa using (by omega :
      (s.buffer.length + 1) + rest.length < 50))]
    simp

theorem idbWriteChunk_ok (s : IndexedDBStrategy) (store : IDBStore) (i : Nat)
    (d : List Nat) (hopen : s.dbOpen = true)
    (hb : s.buffer.length < IndexedDBStrategy.BUFFER_SIZE) :
    idbWriteChunk s store i d =
      if s.buffer.length + 1 = IndexedDBStrategy.BUFFER_SIZE then
        .ok ({ s with
               buffer := [],
               chunksWritten := s.chunksWritten + (s.buffer.length + 1) },
             (s.buffer ++ [mkSessionRecord s.sessionId i d]).foldl storePut store)
      else
        .ok ({ s with buffer := s.buffer ++ [mkSessionRecord s.sessionId i d] },
             store) := by
  rw [idbWriteChunk]
  simp only [hopen, Bool.not_true, Bool.false_eq_true, if_false]
  by_cases hc : s.buffer.length + 1 = IndexedDBStrategy.BUFFER_SIZE
  · have h1 : IndexedDBStrategy.BUFFER_SIZE
        ≤ (s.buffer ++ [mkSessionRecord s.sessionId i d]).length := by
      simp only [List.length_append, List.length_cons, List.length_nil]
      omega
    have h2 : ((s.buffer ++ [mkSessionRecord s.sessionId i d]).isEmpty) = false := by
      rw [List.isEmpty_eq_false_iff_exists_mem]
      exact ⟨mkSessionRecord s.sessionId i d, by simp⟩
    rw [if_pos hc, if_pos h1, idbFlushBuffer, if_neg (by simp [h2])]
    simp
  · have h1 : ¬ (IndexedDBStrategy.BUFFER_SIZE
        ≤ (s.buffer ++ [mkSessionRecord s.sessionId i d]).length) := by
      simp only [List.length_append, List.length_cons, List.length_nil]
      omega
    rw [if_neg hc, if_neg h1]

theorem idbWriteMany_counts : ∀ (ws : List (Nat × List Nat))
    (s : IndexedDBStrategy) (store : IDBStore), s.dbOpen = true →
    s.buffer.length < IndexedDBStrategy.BUFFER_SIZE →
    ∃ s1 store1, idbWriteMany s store ws = .ok (s1, store1) ∧
      s1.dbOpen = true ∧ s1.fileName = s.fileName ∧ s1.sessionId = s.sessionId ∧
      s1.buffer.length
        = (s.buffer.length + ws.length) % IndexedDBStrategy.BUFFER_SIZE ∧
      s1.chunksWritten = s.chunksWritten + IndexedDBStrategy.BUFFER_SIZE
        * ((s.buffer.length + ws.length) / IndexedDBStrategy.BUFFER_SIZE) := by
  intro ws
  induction ws with
  | nil =>
    intro s store hopen hb
    refine ⟨s, store, rfl, hopen, rfl, rfl, ?_, ?_⟩ <;>
      simp only [IndexedDBStrategy.BUFFER_SIZE, List.length_nil, Nat.add_zero]
        at hb ⊢ <;> omega
  | cons w rest ih =>
    obtain ⟨i, d⟩ := w
    intro s store hopen hb
    rw [idbWriteMany, idbWriteChunk_ok s store i d hopen hb]
    simp only [IndexedDBStrategy.BUFFER_SIZE] at hb
    by_cases hflush : s.buffer.length + 1 = IndexedDBStrategy.BUFFER_SIZE
    · rw [if_pos hflush]
      obtain ⟨s1, store1, heq, hopen1, hfn1, hsid1, hblen1, hcw1⟩ :=
        ih { s with
             buffer := [],
             chunksWritten := s.chunksWritten + (s.buffer.length + 1) }
          ((s.buffer ++ [mkSessionRecord s.sessionId i d]).foldl storePut store)
          hopen (by simp [IndexedDBStrategy.BUFFER_SIZE])
      refine ⟨s1, store1, heq, hopen1, hfn1, hsid1, ?_, ?_⟩ <;>
        simp only [IndexedDBStrategy.BUFFER_SIZE, List.length_nil, List.length_cons,
          Nat.zero_add] at hblen1 hcw1 hflush ⊢ <;> omega
    · rw [if_neg hflush]
      obtain ⟨s1, store1, heq, hopen1, hfn1, hsid1, hblen1, hcw1⟩ :=
        ih { s with buffer := s.buffer ++ [mkSessionRecord s.sessionId i d] } store
          hopen (by
            simp only [IndexedDBStrategy.BUFFER_SIZE, List.length_append,
              List.length_cons, List.length_nil] at hflush ⊢
            omega)
      refine ⟨s1, store1, heq, hopen1, hfn1, hsid1, ?_, ?_⟩ <;>
        simp only [IndexedDBStrategy.BUFFER_SIZE, List.length_cons, List.length_append,
          List.length_nil] at hblen1 hcw1 ⊢ <;> omega

/-- C5. For the database backend after `init`: writing exactly
`BUFFER_SIZE` chunks empties the buffer and sets `chunksWritten` to
`BUFFER_SIZE`; writing fewer leaves all of them buffered in order with
`chunksWritten` at 0; and after any write sequence, `finalize` empties the
buffer and returns a `File` named as given at init. -/
theorem idb_buffer_behavior (fileName mimeType sessionId : String) (fileSize : Nat)
    (ws : List (Nat × List Nat)) (store : IDBStore) :
    (ws.length = IndexedDBStrategy.BUFFER_SIZE →
      (idbWriteMany (idbInit fileName fileSize mimeType sessionId) store ws).toOption.map
          (fun p => (p.1.buffer, p.1.chunksWritten))
        = some ([], IndexedDBStrategy.BUFFER_SIZE)) ∧
    (ws.length < IndexedDBStrategy.BUFFER_SIZE →
      (idbWriteMany (idbInit fileName fileSize mimeType sessionId) store ws).toOption.map
          (fun p => (p.1.buffer, p.1.chunksWritten))
        = some (ws.map (fun w => mkSessionRecord sessionId w.1 w.2), 0)) ∧
    (∀ s1 store1,
      idbWriteMany (idbInit fileName fileSize mimeType sessionId) store ws
        = .ok (s1, store1) →
      (idbFinalize s1 store1).toOption.map (fun r => (r.1.buffer, r.2.2.name))
        = some ([], fileName)) := by
  have hinit_open : (idbInit fileName fileSize mimeType sessionId).dbOpen = true := rfl
  have hinit_buf : (idbInit fileName fileSize mimeType sessionId).buffer = [] := rfl
  refine ⟨?_, ?_, ?_⟩
  · intro hlen
    obtain ⟨s1, store1, heq, _, _, _, hblen, hcw⟩ :=
      idbWriteMany_counts ws _ store hinit_open
        (by simp [hinit_buf, IndexedDBStrategy.BUFFER_SIZE])
    rw [heq]
    have hb0 : s1.buffer = [] := by
      refine List.eq_nil_of_length_eq_zero ?_
      rw [hblen, hinit_buf, hlen]
      simp [IndexedDBStrategy.BUFFER_SIZE]
    have hc0 : s1.chunksWritten = IndexedDBStrategy.BUFFER_SIZE := by
      rw [hcw, hinit_buf, hlen]
      simp [idbInit, IndexedDBStrategy.BUFFER_SIZE]
    simp [Except.toOption, hb0, hc0]
  · intro hlen
    rw [idbWriteMany_no_flush ws _ store hinit_open (by simp [hinit_buf]; omega)]
    simp [Except.toOption, hinit_buf, idbInit]
  · intro s1 store1 heq
    obtain ⟨s1', store1', heq', hopen1, hfn1, _, _, _⟩ :=
      idbWriteMany_counts ws _ store hinit_open
        (by simp [hinit_buf, IndexedDBStrategy.BUFFER_SIZE])
    have hp := Except.ok.inj (heq'.symm.trans heq)
    have hs : s1' = s1 := congrArg Prod.fst hp
    have hst : store1' = store1 := congrArg Prod.snd hp
    rw [← hs, ← hst, idbFinalize, if_neg (by simp [hopen1])]
    obtain ⟨_, hffn, _⟩ := idbFlushBuffer_fields s1' store1'
    simp [Except.toOption, idbFlushBuffer_buffer, hffn, hfn1, idbInit]

theorem idb_buffer_behavior_witness :
    ((idbWriteMany (idbInit "nm" 3 "mt" "sA") []
        ((List.range 50).map fun i => (i, [7]))).toOption.map
        (fun p => (p.1.buffer, p.1.chunksWritten))
      = some ([], IndexedDBStrategy.BUFFER_SIZE)) ∧
    ((idbWriteMany (idbInit "nm" 3 "mt" "sA") [] [(0, [7])]).toOption.map
        (fun p => (p.1.buffer, p.1.chunksWritten))
      = some ([mkSessionRecord "sA" 0 [7]], 0)) ∧
    ((idbFinalize (idbInit "nm" 3 "mt" "sA") []).toOption.map
        (fun r => (r.1.buffer, r.2.2.name))
      = some ([], "nm")) :=
  ⟨(idb_buffer_behavior "nm" "mt" "sA" 3 ((List.range 50).map fun i => (i, [7])) []).1
      (by decide),
   (idb_buffer_behavior "nm" "mt" "sA" 3 [(0, [7])] []).2.1 (by decide),
   (idb_buffer_behavior "nm" "mt" "sA" 3 [] []).2.2 (idbInit "nm" 3 "mt" "sA") [] rfl⟩

/-- C6. `cleanup` on one database session removes every persisted record
tagged with that session's id and leaves the records of any other,
concurrently active session untouched (the store keeps primary keys
unique, which is the `hnd` hypothesis). -/
theorem idb_cleanup_frame (s : IndexedDBStrategy) (store : IDBStore) (other : String)
    (hopen : s.dbOpen = true)
    (hnd : (store.map ChunkRecord.id).Nodup)
    (hne : other ≠ s.sessionId) :
    (∀ r ∈ (idbCleanup s store).2, r.sessionId ≠ s.sessionId) ∧
    ((idbCleanup s store).2.filter (fun r => r.sessionId == other)
      = store.filter (fun r => r.sessionId == other)) := by
  rw [idbCleanup, if_neg (by simp [hopen])]
  constructor
  · intro r hr hrs
    have hmem := List.mem_filter.mp hr
    have hkeys : r.id ∈ (store.filter (fun x => x.sessionId == s.sessionId)).map
        ChunkRecord.id :=
      List.mem_map.mpr ⟨r, List.mem_filter.mpr ⟨hmem.1, by simp [hrs]⟩, rfl⟩
    have := hmem.2
    simp only [Bool.not_eq_eq_eq_not, Bool.not_true, List.contains_eq_any_beq] at this
    rw [List.any_eq_false] at this
    exact (this r.id hkeys) (by simp)
  · rw [List.filter_filter]
    refine List.filter_congr ?_
    intro r hr
    by_cases hro : (r.sessionId == other) = true
    · have hnotkey : ((store.filter (fun x => x.sessionId == s.sessionId)).map
          ChunkRecord.id).contains r.id = false := by
        rw [List.contains_eq_any_beq, List.any_eq_false]
        intro a ha
        obtain ⟨r', hr', hra⟩ := List.mem_map.mp ha
        have hr'mem := List.mem_filter.mp hr'
        intro hbeq
        have hid : r.id = r'.id := by
          subst hra
          simpa using hbeq
        have : r = r' := List.inj_on_of_nodup_map hnd hr hr'mem.1 hid
        subst this
        have h1 : r.sessionId = other := by simpa using hro
        have h2 : r.sessionId = s.sessionId := by simpa using hr'mem.2
        exact hne (h1 ▸ h2)
      simp only [hro, hnotkey, Bool.not_false, Bool.and_true, Bool.true_and]
    · simp [Bool.not_eq_true] at hro
      simp [hro]

theorem idb_cleanup_frame_witness :
    ((idbCleanup (idbInit "n" 1 "" "A")
        [⟨"A_0", "A", 0, [1]⟩, ⟨"B_0", "B", 0, [2]⟩]).2.filter
        (fun r => r.sessionId == "B")
      = ([⟨"A_0", "A", 0, [1]⟩, ⟨"B_0", "B", 0, [2]⟩] : IDBStore).filter
        (fun r => r.sessionId == "B")) :=
  (idb_cleanup_frame (idbInit "n" 1 "" "A")
    [⟨"A_0", "A", 0, [1]⟩, ⟨"B_0", "B", 0, [2]⟩] "B" rfl (by decide) (by decide)).2

/-! ## Supporting lemmas: receiver message handler -/

theorem handleMessage_mem_mono (msg : RMsg) (st : ReceiverState) (i : Nat)
    (h : i ∈ st.receivedChunksSet) :
    i ∈ (handleMessage st msg).receivedChunksSet := by
  by_cases hc : st.transferComplete = true
  · simpa [handleMessage, hc] using h
  · simp only [Bool.not_eq_true] at hc
    cases msg with
    | binary data =>
      simp only [handleMessage, hc, Bool.false_eq_true, if_false]
      cases hp : st.pendingChunkIndex with
      | none => simpa using h
      | some j =>
        by_cases hj : j ∈ st.receivedChunksSet
        · simpa [hj] using h
        · simp only [List.contains_eq_any_beq]
          simp [hj, List.mem_append]
          exact Or.inl h
    | meta m =>
      by_cases hm : st.fileMeta.isSome = true <;> simpa [handleMessage, hc, hm] using h
    | chunkHeader idx sz =>
      by_cases hj : idx ∈ st.receivedChunksSet <;>
        simpa [handleMessage, hc, hj] using h
    | complete => simpa [handleMessage, hc] using h

theorem processMessages_mem_mono : ∀ (msgs : List RMsg) (st : ReceiverState)
    (i : Nat), i ∈ st.receivedChunksSet →
    i ∈ (processMessages st msgs).receivedChunksSet := by
  intro msgs
  induction msgs with
  | nil => intro st i h; exact h
  | cons m rest ih =>
    intro st i h
    exact ih (handleMessage st m) i (handleMessage_mem_mono m st i h)

theorem handleMessage_flag (msg : RMsg) (st : ReceiverState)
    (h : st.transferComplete = false) (hm : msg ≠ RMsg.complete) :
    (handleMessage st msg).transferComplete = false := by
  cases msg with
  | binary data =>
    simp only [handleMessage, h, Bool.false_eq_true, if_false]
    cases hp : st.pendingChunkIndex with
    | none => simpa using h
    | some j =>
      by_cases hj : j ∈ st.receivedChunksSet <;> simp [hj, h]
  | meta m => by_cases hmm : st.fileMeta.isSome = true <;> simp [handleMessage, h, hmm]
  | chunkHeader idx sz =>
    by_cases hj : idx ∈ st.receivedChunksSet <;> simp [handleMessage, h, hj]
  | complete => exact absurd rfl hm

theorem processMessages_flag : ∀ (msgs : List RMsg) (st : ReceiverState),
    st.transferComplete = false → RMsg.complete ∉ msgs →
    (processMessages st msgs).transferComplete = false := by
  intro msgs
  induction msgs with
  | nil => intro st h _; exact h
  | cons m rest ih =>
    intro st h hm
    exact ih (handleMessage st m)
      (handleMessage_flag m st h (fun he => hm (he ▸ List.mem_cons_self m rest)))
      (fun hr => hm (List.mem_cons_of_mem m hr))

theorem handleMessage_writes_inv (msg : RMsg) (st : ReceiverState)
    (hcount : ∀ i, countStorageWrites st i
      = if i ∈ st.receivedChunksSet then 1 else 0)
    (hbytes : st.receivedBytes = (st.storageWrites.map fun w => w.2.length).sum) :
    (∀ i, countStorageWrites (handleMessage st msg) i
      = if i ∈ (handleMessage st msg).receivedChunksSet then 1 else 0) ∧
    (handleMessage st msg).receivedBytes
      = ((handleMessage st msg).storageWrites.map fun w => w.2.length).sum := by
  by_cases hc : st.transferComplete = true
  · simp only [handleMessage, hc, if_true]
    exact ⟨hcount, hbytes⟩
  · simp only [Bool.not_eq_true] at hc
    cases msg with
    | binary data =>
      simp only [handleMessage, hc, Bool.false_eq_true, if_false]
      cases hp : st.pendingChunkIndex with
      | none => exact ⟨hcount, hbytes⟩
      | some j =>
        by_cases hj : j ∈ st.receivedChunksSet
        · have hj' : st.receivedChunksSet.contains j = true := by simpa using hj
          simp only [hj', if_true]
          exact ⟨hcount, hbytes⟩
        · have hj' : st.receivedChunksSet.contains j = false := by simpa using hj
          simp only [hj', Bool.false_eq_true, if_false]
          constructor
          · intro i
            have hcnt := hcount i
            simp only [countStorageWrites, List.filter_append, List.length_append]
              at hcnt ⊢
            by_cases hij : i = j
            · subst hij
              rw [if_neg hj] at hcnt
              simp [hcnt]
            · simp only [List.mem_append, List.mem_singleton]
              have : (i ∈ st.receivedChunksSet ∨ i = j) ↔ i ∈ st.receivedChunksSet :=
                ⟨fun h => h.resolve_right hij, Or.inl⟩
              rw [if_congr this rfl rfl, hcnt]
              have hfe : (List.filter (fun w => w.1 == i) [(j, data)]).length = 0 := by
                simp [hij, Ne.symm hij]
              omega
          · simp only [List.map_append, List.sum_append]
            simp [hbytes]
    | meta m =>
      by_cases hmm : st.fileMeta.isSome = true
      · simp only [handleMessage, hc, Bool.false_eq_true, if_false, hmm, if_true]
        exact ⟨hcount, hbytes⟩
      · have hmm' : st.fileMeta.isSome = false := by simpa using hmm
        simp only [handleMessage, hc, Bool.false_eq_true, if_false, hmm']
        exact ⟨hcount, hbytes⟩
    | chunkHeader idx sz =>
      by_cases hj : idx ∈ st.receivedChunksSet
      · have hj' : st.receivedChunksSet.contains idx = true := by simpa using hj
        simp only [handleMessage, hc, Bool.false_eq_true, if_false, hj', if_true]
        exact ⟨hcount, hbytes⟩
      · have hj' : st.receivedChunksSet.contains idx = false := by simpa using hj
        simp only [handleMessage, hc, Bool.false_eq_true, if_false, hj']
        exact ⟨hcount, hbytes⟩
    | complete =>
      simp only [handleMessage, hc, Bool.false_eq_true, if_false]
      exact ⟨hcount, hbytes⟩

theorem processMessages_writes_inv : ∀ (msgs : List RMsg) (st : ReceiverState),
    (∀ i, countStorageWrites st i = if i ∈ st.receivedChunksSet then 1 else 0) →
    st.receivedBytes = (st.storageWrites.map fun w => w.2.length).sum →
    (∀ i, countStorageWrites (processMessages st msgs) i
      = if i ∈ (processMessages st msgs).receivedChunksSet then 1 else 0) ∧
    (processMessages st msgs).receivedBytes
      = ((processMessages st msgs).storageWrites.map fun w => w.2.length).sum := by
  intro msgs
  induction msgs with
  | nil => intro st h1 h2; exact ⟨h1, h2⟩
  | cons m rest ih =>
    intro st h1 h2
    obtain ⟨g1, g2⟩ := handleMessage_writes_inv m st h1 h2
    exact ih (handleMessage st m) g1 g2

theorem pair_sets_mem (st : ReceiverState) (i sz : Nat) (d : List Nat)
    (hflag : st.transferComplete = false) :
    i ∈ (handleMessage (handleMessage st (RMsg.chunkHeader i sz))
      (RMsg.binary d)).receivedChunksSet := by
  by_cases hj : i ∈ st.receivedChunksSet
  · exact handleMessage_mem_mono _ _ i (handleMessage_mem_mono _ _ i hj)
  · have h1 : handleMessage st (RMsg.chunkHeader i sz)
        = { st with pendingChunkIndex := some i } := by
      simp [handleMessage, hflag, hj]
    have hj' : st.receivedChunksSet.contains i = false := by simpa using hj
    rw [h1]
    simp [handleMessage, hflag, hj', hj]

/-- C7. If the chunk-header-plus-binary-payload pair for some index appears
(in protocol order) in a complete-free incoming message sequence — in
particular when it is delivered more than once — the receiver applies that
chunk to storage exactly once, and the received-byte counter equals the sum
of the byte lengths of the distinctly applied chunks; duplicate deliveries
are dropped without effect and without error. -/
theorem receiver_dedup (msgs : List RMsg) (i sz : Nat) (d : List Nat)
    (pre post : List RMsg)
    (hshape : msgs = pre ++ RMsg.chunkHeader i sz :: RMsg.binary d :: post)
    (hnc : RMsg.complete ∉ msgs) :
    countStorageWrites (processMessages initialReceiverState msgs) i = 1 ∧
    (processMessages initialReceiverState msgs).receivedBytes
      = ((processMessages initialReceiverState msgs).storageWrites.map
          fun w => w.2.length).sum := by
  obtain ⟨hinv, hbytes⟩ := processMessages_writes_inv msgs initialReceiverState
    (by intro j; simp [countStorageWrites, initialReceiverState])
    (by simp [initialReceiverState])
  refine ⟨?_, hbytes⟩
  subst hshape
  have hnc_pre : RMsg.complete ∉ pre := fun h => hnc (List.mem_append_left _ h)
  have hflag : (processMessages initialReceiverState pre).transferComplete = false :=
    processMessages_flag pre initialReceiverState rfl hnc_pre
  have hsplit : processMessages initialReceiverState
      (pre ++ RMsg.chunkHeader i sz :: RMsg.binary d :: post)
      = processMessages (handleMessage (handleMessage
          (processMessages initialReceiverState pre)
          (RMsg.chunkHeader i sz)) (RMsg.binary d)) post := by
    simp [processMessages, List.foldl_append]
  have hmem : i ∈ (processMessages initialReceiverState
      (pre ++ RMsg.chunkHeader i sz :: RMsg.binary d :: post)).receivedChunksSet := by
    rw [hsplit]
    exact processMessages_mem_mono post _ i (pair_sets_mem _ i sz d hflag)
  rw [hinv i, if_pos hmem]

theorem receiver_dedup_witness :
    countStorageWrites (processMessages initialReceiverState
      [RMsg.chunkHeader 0 2, RMsg.binary [7, 7],
       RMsg.chunkHeader 0 2, RMsg.binary [7, 7]]) 0 = 1 ∧
    (processMessages initialReceiverState
      [RMsg.chunkHeader 0 2, RMsg.binary [7, 7],
       RMsg.chunkHeader 0 2, RMsg.binary [7, 7]]).receivedBytes
      = ((processMessages initialReceiverState
          [RMsg.chunkHeader 0 2, RMsg.binary [7, 7],
           RMsg.chunkHeader 0 2, RMsg.binary [7, 7]]).storageWrites.map
          fun w => w.2.length).sum :=
  receiver_dedup _ 0 2 [7, 7] []
    [RMsg.chunkHeader 0 2, RMsg.binary [7, 7]] rfl (by decide)

/-! ## Supporting lemmas: hashing progress reports -/

theorem chunkedEnds_head_ge (offset total : Nat) :
    ∀ y ∈ (chunkedEnds offset total).head?, offset ≤ y := by
  intro y hy
  rw [chunkedEnds] at hy
  split at hy
  · simp only [List.head?_cons, Option.mem_def, Option.some.injEq] at hy
    subst hy
    rename_i h
    simp only [HASH_CHUNK_SIZE]
    omega
  · simp at hy

theorem chunkedEnds_chain_aux : ∀ (n offset total : Nat), total - offset = n →
    List.Chain' (· ≤ ·) (chunkedEnds offset total) := by
  intro n
  induction n using Nat.strong_induction_on with
  | _ n ih =>
    intro offset total hn
    rw [chunkedEnds]
    split
    · rename_i h
      rw [List.chain'_cons']
      constructor
      · exact chunkedEnds_head_ge _ total
      · refine ih (total - min (offset + HASH_CHUNK_SIZE) total) ?_ _ _ rfl
        simp only [HASH_CHUNK_SIZE] at *
        omega
    · exact List.chain'_nil

theorem chunkedEnds_getLast_aux : ∀ (n offset total : Nat), total - offset = n →
    offset < total → (chunkedEnds offset total).getLast? = some total := by
  intro n
  induction n using Nat.strong_induction_on with
  | _ n ih =>
    intro offset total hn h
    rw [chunkedEnds, if_pos h]
    by_cases he : min (offset + HASH_CHUNK_SIZE) total < total
    · have hrec : (chunkedEnds (min (offset + HASH_CHUNK_SIZE) total) total).getLast?
          = some total := by
        refine ih (total - min (offset + HASH_CHUNK_SIZE) total) ?_ _ _ rfl he
        simp only [HASH_CHUNK_SIZE] at *
        omega
      have hne : chunkedEnds (min (offset + HASH_CHUNK_SIZE) total) total ≠ [] := by
        intro hnil
        rw [hnil] at hrec
        simp at hrec
      obtain ⟨x, rest', hx⟩ := List.exists_cons_of_ne_nil hne
      rw [hx, List.getLast?_cons_cons, ← hx, hrec]
    · have he2 : min (offset + HASH_CHUNK_SIZE) total = total := by omega
      rw [he2, chunkedEnds, if_neg (Nat.lt_irrefl total)]
      rfl

theorem chunkedEnds_length_aux : ∀ (n offset total : Nat), total - offset = n →
    (chunkedEnds offset total).length
      = (total - offset + HASH_CHUNK_SIZE - 1) / HASH_CHUNK_SIZE := by
  intro n
  induction n using Nat.strong_induction_on with
  | _ n ih =>
    intro offset total hn
    rw [chunkedEnds]
    split
    · rename_i h
      rw [List.length_cons,
        ih (total - min (offset + HASH_CHUNK_SIZE) total)
          (by simp only [HASH_CHUNK_SIZE] at *; omega) _ _ rfl]
      simp only [HASH_CHUNK_SIZE] at *
      omega
    · rename_i h
      simp only [List.length_nil, HASH_CHUNK_SIZE]
      omega

theorem jsRound100_mono (total e1 e2 : Nat) (h : e1 ≤ e2) :
    jsRound100 e1 total ≤ jsRound100 e2 total := by
  rw [jsRound100, jsRound100]
  exact Nat.div_le_div_right (by omega)

theorem jsRound100_total (total : Nat) (h : 0 < total) :
    jsRound100 total total = 100 := by
  rw [jsRound100]
  exact Nat.div_eq_of_lt_le (by omega) (by omega)

/-- C9 (amended). For every non-empty input, the `onProgress` sequence of
the hashing operation is invoked once per slice on the chunked path, the
reported percent values are monotonically non-decreasing, and the final
report is exactly 100; a 100 may however already be reported before the
last slice (see the counterexample). -/
theorem hash_progress_reports (size : Nat) (h : 0 < size) :
    (calculateSHA256Reports size).Chain' (· ≤ ·) ∧
    (calculateSHA256Reports size).getLast? = some 100 ∧
    (SMALL_FILE_THRESHOLD ≤ size →
      (calculateSHA256Reports size).length
        = (size + HASH_CHUNK_SIZE - 1) / HASH_CHUNK_SIZE) := by
  by_cases hs : size < SMALL_FILE_THRESHOLD
  · rw [calculateSHA256Reports, if_pos hs]
    refine ⟨?_, rfl, fun hcon => absurd hs (by omega)⟩
    rw [List.chain'_cons, List.chain'_cons]
    exact ⟨by norm_num, by norm_num, List.chain'_singleton 100⟩
  · rw [calculateSHA256Reports, if_neg hs]
    rw [chunkedProgressReports]
    refine ⟨?_, ?_, ?_⟩
    · rw [List.chain'_map]
      exact (chunkedEnds_chain_aux (size - 0) 0 size rfl).imp
        fun a b hab => jsRound100_mono size a b hab
    · rw [List.getLast?_map, chunkedEnds_getLast_aux (size - 0) 0 size rfl (by omega)]
      simp [jsRound100_total size h]
    · intro hc
      rw [List.length_map, chunkedEnds_length_aux (size - 0) 0 size rfl]
      simp

theorem hash_progress_reports_witness :
    (calculateSHA256Reports 1).Chain' (· ≤ ·) ∧
    (calculateSHA256Reports 1).getLast? = some 100 ∧
    (SMALL_FILE_THRESHOLD ≤ 1 →
      (calculateSHA256Reports 1).length
        = (1 + HASH_CHUNK_SIZE - 1) / HASH_CHUNK_SIZE) :=
  hash_progress_reports 1 (by decide)

/-- C9 counterexample.  For a 112 MiB + 1 byte input the chunked hashing
path reports the percent value 100 already on the seventh of eight slices,
before the final slice has been consumed: the claim "100 is reported
exactly at completion, never before the final slice" is false on the code
(`Math.round` reaches 100 for any ratio of at least 99.5 %). -/
theorem hash_progress_early_100_counterexample :
    100 ∈ (calculateSHA256Reports 117440513).dropLast ∧
    (calculateSHA256Reports 117440513).length = 8 := by
  have h : calculateSHA256Reports 117440513 = [14, 29, 43, 57, 71, 86, 100, 100] := by
    rw [calculateSHA256Reports, if_neg (by decide)]
    simp [chunkedProgressReports, chunkedEnds, HASH_CHUNK_SIZE, jsRound100]
  rw [h]
  exact ⟨by decide, rfl⟩

end P2P
